import Mathlib

/-!
Verification of the AwesomeTTS `Service` base class
(`addon/awesometts/service/base.py`) against its natural-language
specification.  The Python code is shallowly embedded: byte strings and
decoded unicode strings are `List Nat` (byte values / code points),
Python text handled by the splitter is `List Char`, the mutable
`_downloads` slot is threaded explicitly through a `ServiceState`
record, and fallible operations return `Except`.
-/

set_option autoImplicit false

namespace AwesomeTTS

/-! ### Generic helpers shared by the embedding -/

/-- Python `sep.join(parts)`: interleave `sep` between the parts. -/
def joinSep {α : Type} (sep : List α) : List (List α) → List α
  | [] => []
  | [x] => x
  | x :: xs => x ++ sep ++ joinSep sep xs

/-- Right-strip under a predicate: drop the longest suffix all of whose
elements satisfy `p` (Python `rstrip` generalized). -/
def rstripBy {α : Type} (p : α → Bool) (l : List α) : List α :=
  (l.reverse.dropWhile p).reverse

/-- Code points Python 2's `unicode.strip()` treats as whitespace. -/
def isPySpace (c : Nat) : Bool :=
  decide ((9 ≤ c ∧ c ≤ 13) ∨ (28 ≤ c ∧ c ≤ 31) ∨ c = 32 ∨ c = 133 ∨ c = 160 ∨
    c = 0x1680 ∨ (0x2000 ≤ c ∧ c ≤ 0x200A) ∨ c = 0x2028 ∨ c = 0x2029 ∨
    c = 0x202F ∨ c = 0x205F ∨ c = 0x3000)

/-- Python `u.strip()` on a decoded string given as code points. -/
def stripWs (l : List Nat) : List Nat :=
  rstripBy isPySpace (l.dropWhile isPySpace)

/-- Python `u.split(u'\n')`: split on every newline, keeping empty
fields (so the result is never the empty list). -/
def splitNL : List Nat → List (List Nat)
  | [] => [[]]
  | c :: cs =>
    if c = 10 then [] :: splitNL cs
    else
      match splitNL cs with
      | l :: ls => (c :: l) :: ls
      | [] => [[c]]

/-- Inverse of `splitNL`: join lines with a newline between them. -/
def joinNL : List (List Nat) → List Nat
  | [] => []
  | l :: ls =>
    match ls with
    | [] => l
    | _ :: _ => l ++ 10 :: joinNL ls

/-! ### The candidate decodings tried on CLI output (`CLI_DECODINGS`) -/

/-- Python `bytes.decode('ascii')`: succeeds iff every byte is < 128. -/
def asciiDecode (bs : List Nat) : Option (List Nat) :=
  if bs.all (fun b => decide (b < 128)) then some bs else none

/-- Python `bytes.decode('latin-1')`: maps every byte to the code point
of the same value, so it succeeds on every byte string. -/
def latin1Decode (bs : List Nat) : Option (List Nat) :=
  if bs.all (fun b => decide (b < 256)) then some bs else none

/-- A UTF-8 continuation byte. -/
def utf8Cont (b : Nat) : Bool := decide (128 ≤ b ∧ b < 192)

/-- Python 2 `bytes.decode('utf-8')`: strict UTF-8 except that lone
surrogate code points are accepted, as CPython 2's codec does. -/
def utf8Decode : List Nat → Option (List Nat)
  | [] => some []
  | b :: bs =>
    if b < 128 then (utf8Decode bs).map (b :: ·)
    else if b < 194 then none
    else if b < 224 then
      match bs with
      | b1 :: rest =>
        if utf8Cont b1 then
          (utf8Decode rest).map (((b - 192) * 64 + (b1 - 128)) :: ·)
        else none
      | _ => none
    else if b < 240 then
      match bs with
      | b1 :: b2 :: rest =>
        if utf8Cont b1 && utf8Cont b2 && (decide (224 < b) || decide (160 ≤ b1)) then
          (utf8Decode rest).map
            (((b - 224) * 4096 + (b1 - 128) * 64 + (b2 - 128)) :: ·)
        else none
      | _ => none
    else if b < 245 then
      match bs with
      | b1 :: b2 :: b3 :: rest =>
        if utf8Cont b1 && utf8Cont b2 && utf8Cont b3 &&
            (decide (240 < b) || decide (144 ≤ b1)) &&
            (decide (b < 244) || decide (b1 < 144)) then
          (utf8Decode rest).map
            (((b - 240) * 262144 + (b1 - 128) * 4096 + (b2 - 128) * 64 +
              (b3 - 128)) :: ·)
        else none
      | _ => none
    else none

/-- The encodings named in `Service.CLI_DECODINGS` (non-Windows list). -/
inductive Encoding
  | ascii
  | utf8
  | latin1
deriving DecidableEq

/-- Dispatch an `Encoding` to its decoder. -/
def decodeWith : Encoding → List Nat → Option (List Nat)
  | .ascii, bs => asciiDecode bs
  | .utf8, bs => utf8Decode bs
  | .latin1, bs => latin1Decode bs

/-- `CLI_DECODINGS = ['ascii', 'utf-8', 'latin-1']`. -/
def CLI_DECODINGS : List Encoding := [.ascii, .utf8, .latin1]

/-- The `for encoding in self.CLI_DECODINGS ... break / else` loop of
`_cli_decode`: the first decoding that succeeds wins; `none` means every
candidate failed and the `else` (forced-ASCII) branch runs. -/
def decodeLoop : List Encoding → List Nat → Option (List Nat)
  | [], _ => none
  | e :: es, bs =>
    match decodeWith e bs with
    | some s => some s
    | none => decodeLoop es bs

/-- Python `bytes.decode('ascii', errors='ignore')`: keep the bytes
below 128 and silently drop the rest. -/
def forcedAscii (bs : List Nat) : List Nat :=
  bs.filter (fun b => decide (b < 128))

/-- Failures surfaced by the CLI helpers. -/
inductive CliErr
  | noOutput
  | whitespaceOnly
  | processError (code : Nat)
deriving DecidableEq

/-- `Service._cli_decode`: reject empty output, try the candidate
decodings in order with forced ASCII as last resort, strip surrounding
whitespace, reject an all-whitespace result, and split into lines. -/
def cli_decode (bs : List Nat) : Except CliErr (List (List Nat)) :=
  if bs = [] then .error .noOutput
  else
    let decoded :=
      match decodeLoop CLI_DECODINGS bs with
      | some s => s
      | none => forcedAscii bs
    let trimmed := stripWs decoded
    if trimmed = [] then .error .whitespaceOnly
    else .ok (splitNL trimmed)

/-! ### Process invocation (`cli_output` / `cli_output_error`) -/

/-- Outcome of one external command: exit status plus the bytes written
to each stream.  The OS-level merge performed by `stderr=STDOUT` is
modelled as the standard-output bytes followed by the standard-error
bytes. -/
structure ProcResult where
  exitCode : Nat
  stdout : List Nat
  stderr : List Nat
deriving DecidableEq

/-- `subprocess.check_output`: returns the captured bytes on a zero
exit, and raises `CalledProcessError` carrying those bytes otherwise. -/
def check_output (p : ProcResult) (redirect : Bool) :
    Except (Nat × List Nat) (List Nat) :=
  let out := if redirect then p.stdout ++ p.stderr else p.stdout
  if p.exitCode = 0 then .ok out else .error (p.exitCode, out)

/-- `Service.cli_output`: strict capture of stdout only; a non-zero
exit propagates as a process error. -/
def cli_output (p : ProcResult) : Except CliErr (List (List Nat)) :=
  match check_output p false with
  | .error e => .error (.processError e.1)
  | .ok out => cli_decode out

/-- `Service.cli_output_error`: capture with stderr merged in; a
`CalledProcessError` is caught and its output used regardless. -/
def cli_output_error (p : ProcResult) : Except CliErr (List (List Nat)) :=
  match check_output p true with
  | .error e => cli_decode e.2
  | .ok out => cli_decode out

/-! ### Network fetcher (`net_download` and the download counter) -/

/-- The characters Python 2's `urllib.quote` never escapes: ASCII
letters, digits, underscore, period and hyphen (`safe=''` adds none). -/
def alwaysSafe (b : Nat) : Bool :=
  decide ((65 ≤ b ∧ b ≤ 90) ∨ (97 ≤ b ∧ b ≤ 122) ∨ (48 ≤ b ∧ b ≤ 57) ∨
    b = 95 ∨ b = 46 ∨ b = 45)

/-- Uppercase hexadecimal digit character for a value below 16. -/
def hexDigitChar (d : Nat) : Nat := if d < 10 then 48 + d else 55 + d

/-- `urllib.quote(s, safe='')`: keep the always-safe bytes and replace
every other byte by a percent sign and two uppercase hex digits. -/
def quoteBytes : List Nat → List Nat
  | [] => []
  | b :: bs =>
    (if alwaysSafe b then [b]
     else [37, hexDigitChar (b / 16), hexDigitChar (b % 16)]) ++ quoteBytes bs

/-- Numeric value of one hexadecimal digit character. -/
def hexVal (c : Nat) : Option Nat :=
  if 48 ≤ c ∧ c ≤ 57 then some (c - 48)
  else if 65 ≤ c ∧ c ≤ 70 then some (c - 55)
  else if 97 ≤ c ∧ c ≤ 102 then some (c - 87)
  else none

/-- Percent-decoding, used to state that `quoteBytes` loses nothing. -/
def unquoteBytes : List Nat → List Nat
  | [] => []
  | b :: rest =>
    match rest with
    | h :: l :: rest2 =>
      if b = 37 then
        match hexVal h, hexVal l with
        | some a, some c => (16 * a + c) :: unquoteBytes rest2
        | _, _ => b :: unquoteBytes (h :: l :: rest2)
      else b :: unquoteBytes (h :: l :: rest2)
    | short => b :: unquoteBytes short

/-- Bytes of a Lean string literal (used for concrete ASCII inputs). -/
def strBytes (s : String) : List Nat := s.toList.map Char.toNat

/-- UTF-8 encoding of one code point (`unicode.encode('utf-8')`). -/
def utf8EncodeChar (c : Nat) : List Nat :=
  if c < 0x80 then [c]
  else if c < 0x800 then [192 + c / 64, 128 + c % 64]
  else if c < 0x10000 then [224 + c / 4096, 128 + c / 64 % 64, 128 + c % 64]
  else [240 + c / 262144, 128 + c / 4096 % 64, 128 + c / 64 % 64, 128 + c % 64]

/-- A value of the query mapping: a Python `unicode` string (code
points), a `str` byte string, or a non-string value such as a number. -/
inductive QVal
  | quni (codepoints : List Nat)
  | qbytes (bytes : List Nat)
  | qnum (n : Nat)
deriving DecidableEq

/-- The stringification `net_download` applies before quoting:
`val.encode('utf-8') if unicode else val if str else str(val)`. -/
def stringifyVal : QVal → List Nat
  | .quni cps => joinSep [] (cps.map utf8EncodeChar)
  | .qbytes bs => bs
  | .qnum n => strBytes (Nat.repr n)

/-- One fetch target: an address and the query-parameter mapping. -/
def Target : Type := List Nat × List (List Nat × QVal)

/-- The URL built by `net_download` for one target:
`'?'.join([url, '&'.join('='.join([key, quote(val, safe='')]) ...)])`.
Only the value passes through `quote`; the key is joined verbatim. -/
def buildTargetUrl (t : Target) : List Nat :=
  joinSep [63]
    [t.1,
     joinSep [38]
       (t.2.map fun kv => joinSep [61] [kv.1, quoteBytes (stringifyVal kv.2)])]

/-- What the claim says instead: keys are percent-encoded as well. -/
def buildTargetUrlSpec (t : Target) : List Nat :=
  joinSep [63]
    [t.1,
     joinSep [38]
       (t.2.map fun kv =>
         joinSep [61] [quoteBytes kv.1, quoteBytes (stringifyVal kv.2)])]

/-- A successful HTTP response: status code, declared content type and
payload bytes. -/
structure Response where
  code : Nat
  mime : List Nat
  payload : List Nat
deriving DecidableEq

/-- The optional `require` dict: `mime` and/or `size`. -/
structure Require where
  mime : Option (List Nat)
  size : Option Nat
deriving DecidableEq

/-- Failures `net_download` can raise, in source order, plus the
`TypeError` raised by `self._downloads += 1` when the slot is `None`. -/
inductive NetError
  | counterUnset
  | noResponse
  | badStatus (code : Nat)
  | badMime
  | tooSmall (got want : Nat)
deriving DecidableEq

/-- The size check performed after reading the payload. -/
def fetchSize (req : Require) (resp : Response) : Except NetError (List Nat) :=
  match req.size with
  | some n =>
    if resp.payload.length < n then .error (.tooSmall resp.payload.length n)
    else .ok resp.payload
  | none => .ok resp.payload

/-- The per-target validation of `net_download`, in source order: no
response, status other than 200, content-type mismatch, then the
minimum payload size. -/
def fetchCheck (req : Require) (r : Option Response) :
    Except NetError (List Nat) :=
  match r with
  | none => .error .noResponse
  | some resp =>
    if resp.code ≠ 200 then .error (.badStatus resp.code)
    else
      match req.mime with
      | some m => if m ≠ resp.mime then .error .badMime else fetchSize req resp
      | none => fetchSize req resp

/-- The mutable per-instance state: the `_downloads` slot, which
`__init__` leaves as `None`. -/
structure ServiceState where
  downloads : Option Nat
deriving DecidableEq

/-- State of a freshly constructed service (`self._downloads = None`). -/
def initService : ServiceState := ⟨none⟩

/-- `Service.net_download_count`. -/
def net_download_count (s : ServiceState) : Option Nat := s.downloads

/-- `Service.net_download_reset`. -/
def net_download_reset (_ : ServiceState) : ServiceState := ⟨some 0⟩

/-- The fetch loop of `net_download` over the already-built URLs.  The
counter is incremented *before* the request is issued and validated;
raising leaves the loop with the payloads gathered so far discarded.
`fetch` models the network: the response each URL produces. -/
def net_download_go (req : Require) (fetch : List Nat → Option Response) :
    Option Nat → List (List Nat) → Option Nat × Except NetError (List Nat)
  | d, [] => (d, .ok [])
  | d, url :: urls =>
    match d with
    | none => (none, .error .counterUnset)
    | some c =>
      match fetchCheck req (fetch url) with
      | .error e => (some (c + 1), .error e)
      | .ok payload =>
        match net_download_go req fetch (some (c + 1)) urls with
        | (d2, .ok rest) => (d2, .ok (payload ++ rest))
        | (d2, .error e) => (d2, .error e)

/-- `Service.net_download`: build one URL per target, fetch and
validate each in order, and on overall success write the concatenated
payloads to the destination path in one operation.  The write is
modelled by the `.ok` payload of the result: `.ok bs` means the file at
the destination now holds exactly `bs`; `.error e` means the operation
raised `e` with nothing written. -/
def net_download (s : ServiceState) (fetch : List Nat → Option Response)
    (targets : List Target) (req : Require) :
    ServiceState × Except NetError (List Nat) :=
  let r := net_download_go req fetch s.downloads (targets.map buildTargetUrl)
  (⟨r.1⟩, r.2)

/-- Whether one target passes every check of `net_download`. -/
def targetOk (req : Require) (fetch : List Nat → Option Response)
    (t : Target) : Bool :=
  (fetchCheck req (fetch (buildTargetUrl t))).isOk

/-- The payload a target would contribute (meaningful when it is ok). -/
def targetPayload (req : Require) (fetch : List Nat → Option Response)
    (t : Target) : List Nat :=
  match fetchCheck req (fetch (buildTargetUrl t)) with
  | .ok p => p
  | .error _ => []

/-- The number of `self._downloads += 1` executions a call performs:
one per target up to and including the first failing one. -/
def attemptCount (req : Require) (fetch : List Nat → Option Response) :
    List Target → Nat
  | [] => 0
  | t :: ts =>
    if targetOk req fetch t then 1 + attemptCount req fetch ts else 1

/-! ### Transcoder (`cli_transcode`) -/

/-- Failures of the transcoding pipeline, in source order. -/
inductive TransErr
  | missingInput
  | insufficientInput (got want : Nat)
  | toolNotFound
  | processFailed
  | transcodeFailed
deriving DecidableEq

/-- Behavior of the external LAME invocation: the executable may be
absent (`OSError` with `ENOENT`), may exit non-zero
(`CalledProcessError`), or may run to completion having produced the
intermediate file (of some size) or not. -/
inductive LameOutcome
  | enoent
  | exitNonzero
  | ran (produced : Option Nat)
deriving DecidableEq

/-- `Service.cli_transcode` over an abstract file system mapping paths
to file sizes.  `input_path` and `output_path` are the caller's
arguments; `intermediate_path` is the fresh scratch path `path_temp`
returned; `size_in` is `require['size_in']` when present.  The result
is the file system after the call, or the error raised. -/
def cli_transcode (fs : Nat → Option Nat) (input_path output_path
    intermediate_path : Nat) (size_in : Option Nat) (lame : LameOutcome) :
    Except TransErr (Nat → Option Nat) :=
  match fs input_path with
  | none => .error .missingInput
  | some sz =>
    let afterSize : Except TransErr (Nat → Option Nat) :=
      match lame with
      | .enoent => .error .toolNotFound
      | .exitNonzero => .error .processFailed
      | .ran none => .error .transcodeFailed
      | .ran (some n) =>
        .ok fun p =>
          if p = output_path then some n
          else if p = intermediate_path then none
          else fs p
    match size_in with
    | some m => if sz < m then .error (.insufficientInput sz m) else afterSize
    | none => afterSize

/-! ### Text segmenter (`util_split`) -/

/-- `SPLIT_PRIORITY`: the four break-symbol tiers, highest first. -/
def SPLIT_PRIORITY : List (List Char) :=
  [['.', '?', '!', Char.ofNat 0x3002],
   [',', ';', ':', Char.ofNat 0x3001],
   [' ', Char.ofNat 0x3000],
   ['-', Char.ofNat 0x2027, Char.ofNat 0x30FB]]

/-- `SPLIT_CHARACTERS`: every break symbol, joined into one string. -/
def SPLIT_CHARACTERS : List Char := joinSep [] SPLIT_PRIORITY

/-- `SPLIT_MINIMUM`: break offsets must exceed this threshold. -/
def SPLIT_MINIMUM : Nat := 5

/-- Membership in `SPLIT_CHARACTERS` (the `lstrip` set). -/
def splitChar (c : Char) : Bool := SPLIT_CHARACTERS.contains c

/-- Python whitespace test on a `Char` (for `rstrip()`). -/
def isPySpaceChar (c : Char) : Bool := isPySpace c.toNat

/-- `text.rfind(sym, 0, limit)` restricted to found offsets: the
largest index below both `limit` and the length at which `sym`
occurs. -/
def rfindBefore (text : List Char) (sym : Char) (limit : Nat) : Option Nat :=
  ((List.range (min limit text.length)).filter
    (fun i => text.get? i == some sym)).max?

/-- The qualifying offsets of one tier: for each symbol, its rightmost
occurrence before `limit`, kept only when strictly above
`SPLIT_MINIMUM`. -/
def qualifying (text : List Char) (limit : Nat) (symbols : List Char) :
    List Nat :=
  symbols.filterMap fun sym =>
    (rfindBefore text sym limit).filter fun i => decide (SPLIT_MINIMUM < i)

/-- Scan the tiers in priority order; the first tier with a qualifying
offset yields its largest one (`sorted(offsets).pop()`). -/
def tierCut : List (List Char) → List Char → Nat → Option Nat
  | [], _, _ => none
  | tier :: tiers, text, limit =>
    match (qualifying text limit tier).max? with
    | some o => some o
    | none => tierCut tiers text limit

/-- The `while len(text) > limit` loop of `util_split`, with explicit
fuel (each iteration strictly shortens the text whenever the limit is
at least 1, so fuel equal to the initial length suffices).  A natural
break emits the cut right-stripped of whitespace; the fallback emits a
hard cut at `limit`; either way the remainder is left-stripped of break
characters before continuing, and the final remainder is appended. -/
def util_split_go (limit : Nat) : Nat → List Char → List (List Char)
  | 0, text => [text]
  | fuel + 1, text =>
    if text.length ≤ limit then [text]
    else
      match tierCut SPLIT_PRIORITY text limit with
      | some offset =>
        rstripBy isPySpaceChar (text.take (offset + 1)) ::
          util_split_go limit fuel
            ((text.drop (offset + 1)).dropWhile splitChar)
      | none =>
        text.take limit ::
          util_split_go limit fuel ((text.drop limit).dropWhile splitChar)

/-- `Service.util_split`. -/
def util_split (text : List Char) (limit : Nat) : List (List Char) :=
  util_split_go limit text.length text

/-- A character the splitter is allowed to drop between chunks:
whitespace (via `rstrip`) or a break character (via `lstrip`). -/
def strippedChar (c : Char) : Bool := isPySpaceChar c || splitChar c

/-- The reconstruction relation: `Recon bits text` holds when `text` is
the chunks of `bits` in order, interleaved with (possibly empty) spacer
strings made only of characters the splitter strips. -/
inductive Recon : List (List Char) → List Char → Prop
  | single (t : List Char) : Recon [t] t
  | cons (bit spacer : List Char) (bits : List (List Char)) (rest : List Char) :
      (∀ c ∈ spacer, strippedChar c = true) → Recon bits rest →
      Recon (bit :: bits) (bit ++ (spacer ++ rest))

/-! ### Helper lemmas -/

theorem joinSep_nil_cons {α : Type} (x : List α) (xs : List (List α)) :
    joinSep ([] : List α) (x :: xs) = x ++ joinSep [] xs := by
  cases xs with
  | nil => simp [joinSep]
  | cons y ys => simp [joinSep]

theorem mem_dropWhile_of {α : Type} (p : α → Bool) (b : α) (l : List α)
    (hb : b ∈ l) (hp : p b = false) : b ∈ l.dropWhile p := by
  induction l with
  | nil => cases hb
  | cons x xs ih =>
    cases hpx : p x with
    | true =>
      rw [List.dropWhile_cons_of_pos hpx]
      rcases List.mem_cons.mp hb with h | h
      · subst h; rw [hpx] at hp; cases hp
      · exact ih h
    | false => rw [List.dropWhile_cons_of_neg (by simp [hpx])]; exact hb

theorem dropWhile_append_of_exists {α : Type} (p : α → Bool) (A B : List α)
    (h : ∃ a ∈ A, p a = false) :
    (A ++ B).dropWhile p = A.dropWhile p ++ B := by
  induction A with
  | nil => obtain ⟨a, ha, _⟩ := h; cases ha
  | cons x xs ih =>
    cases hpx : p x with
    | false =>
      rw [List.cons_append, List.dropWhile_cons_of_neg (by simp [hpx]),
        List.dropWhile_cons_of_neg (by simp [hpx])]
      rfl
    | true =>
      obtain ⟨a, ha, hpa⟩ := h
      have ha' : a ∈ xs := by
        rcases List.mem_cons.mp ha with h1 | h1
        · subst h1; rw [hpx] at hpa; cases hpa
        · exact h1
      rw [List.cons_append, List.dropWhile_cons_of_pos hpx,
        List.dropWhile_cons_of_pos hpx]
      exact ih ⟨a, ha', hpa⟩

theorem dropWhile_append_of_all {α : Type} (p : α → Bool) (A B : List α)
    (h : ∀ a ∈ A, p a = true) :
    (A ++ B).dropWhile p = B.dropWhile p := by
  induction A with
  | nil => rfl
  | cons x xs ih =>
    rw [List.cons_append, List.dropWhile_cons_of_pos (h x (by simp))]
    exact ih fun a ha => h a (by simp [ha])

theorem rstripBy_append_of_exists {α : Type} (p : α → Bool) (A B : List α)
    (h : ∃ b ∈ B, p b = false) :
    rstripBy p (A ++ B) = A ++ rstripBy p B := by
  obtain ⟨b, hb, hpb⟩ := h
  unfold rstripBy
  rw [List.reverse_append,
    dropWhile_append_of_exists p B.reverse A.reverse
      ⟨b, List.mem_reverse.mpr hb, hpb⟩,
    List.reverse_append, List.reverse_reverse]

theorem rstripBy_decomp {α : Type} (p : α → Bool) (l : List α) :
    ∃ t, l = rstripBy p l ++ t ∧ ∀ x ∈ t, p x = true := by
  refine ⟨(l.reverse.takeWhile p).reverse, ?_, ?_⟩
  · conv_lhs => rw [← l.reverse_reverse,
      ← List.takeWhile_append_dropWhile p l.reverse]
    rw [List.reverse_append]
    rfl
  · intro x hx
    exact List.mem_takeWhile_imp (List.mem_reverse.mp hx)

theorem rstripBy_eq_nil {α : Type} (p : α → Bool) (l : List α)
    (h : rstripBy p l = []) : ∀ x ∈ l, p x = true := by
  intro x hx
  have h2 : l.reverse.dropWhile p = [] := by
    have := congrArg List.reverse h
    rwa [rstripBy, List.reverse_reverse, List.reverse_nil] at this
  exact List.dropWhile_eq_nil_iff.mp h2 x (List.mem_reverse.mpr hx)

theorem stripWs_ne_nil_of_mem (B : List Nat) (b : Nat) (hb : b ∈ B)
    (hp : isPySpace b = false) : stripWs B ≠ [] := by
  intro h
  have hb2 : b ∈ B.dropWhile isPySpace := mem_dropWhile_of _ _ _ hb hp
  have := rstripBy_eq_nil isPySpace _ h b hb2
  rw [hp] at this
  cases this

theorem rstripBy_takeWhile_decomp (p : Nat → Bool) (B : List Nat)
    (h : ∃ b ∈ B, p b = false) :
    rstripBy p B = B.takeWhile p ++ rstripBy p (B.dropWhile p) := by
  obtain ⟨b, hb, hpb⟩ := h
  conv_lhs => rw [← List.takeWhile_append_dropWhile p B]
  exact rstripBy_append_of_exists p _ _ ⟨b, mem_dropWhile_of _ _ _ hb hpb, hpb⟩

theorem stripWs_suffix_append (A B : List Nat)
    (h : ∃ b ∈ B, isPySpace b = false) :
    stripWs B <:+ stripWs (A ++ B) := by
  unfold stripWs
  by_cases hA : ∃ a ∈ A, isPySpace a = false
  · rw [dropWhile_append_of_exists _ A B hA,
      rstripBy_append_of_exists _ _ B h,
      rstripBy_takeWhile_decomp _ B h, ← List.append_assoc]
    exact ⟨_, rfl⟩
  · push_neg at hA
    have hall : ∀ a ∈ A, isPySpace a = true := fun a ha => by
      cases hpa : isPySpace a with
      | true => rfl
      | false => exact absurd hpa (hA a ha)
    rw [dropWhile_append_of_all _ A B hall]

theorem splitNL_ne_nil (l : List Nat) : splitNL l ≠ [] := by
  cases l with
  | nil => simp [splitNL]
  | cons c cs =>
    rw [splitNL]
    by_cases hc : c = 10
    · simp [hc]
    · rw [if_neg hc]
      cases h : splitNL cs with
      | nil => simp
      | cons x xs => simp

theorem joinNL_splitNL (l : List Nat) : joinNL (splitNL l) = l := by
  induction l with
  | nil => rfl
  | cons c cs ih =>
    rw [splitNL]
    by_cases hc : c = 10
    · subst hc
      rw [if_pos rfl]
      cases h : splitNL cs with
      | nil => exact absurd h (splitNL_ne_nil cs)
      | cons x xs =>
        rw [h] at ih
        rw [joinNL, List.nil_append, ih]
    · rw [if_neg hc]
      cases h : splitNL cs with
      | nil => exact absurd h (splitNL_ne_nil cs)
      | cons x xs =>
        rw [h] at ih
        cases xs with
        | nil =>
          rw [joinNL] at ih
          rw [joinNL, ih]
        | cons y ys =>
          rw [joinNL] at ih
          rw [joinNL, List.cons_append, ih]

theorem joinSep_pair {α : Type} (s : α) (a b : List α) :
    joinSep [s] [a, b] = a ++ s :: b := by
  simp [joinSep]

theorem hexVal_hexDigitChar (d : Nat) (hd : d < 16) :
    hexVal (hexDigitChar d) = some d := by
  have h : ∀ e < 16, hexVal (hexDigitChar e) = some e := by decide
  exact h d hd

theorem unquoteBytes_cons_ne (b : Nat) (rest : List Nat) (hb : b ≠ 37) :
    unquoteBytes (b :: rest) = b :: unquoteBytes rest := by
  cases rest with
  | nil => rfl
  | cons h1 t1 =>
    cases t1 with
    | nil => rfl
    | cons h2 t2 => rw [unquoteBytes, if_neg hb]

theorem unquoteBytes_percent (a c : Nat) (rest : List Nat) (ha : a < 16)
    (hc : c < 16) :
    unquoteBytes (37 :: hexDigitChar a :: hexDigitChar c :: rest) =
      (16 * a + c) :: unquoteBytes rest := by
  rw [unquoteBytes]
  simp [hexVal_hexDigitChar a ha, hexVal_hexDigitChar c hc]

theorem unquote_quote (bs : List Nat) (h : ∀ b ∈ bs, b < 256) :
    unquoteBytes (quoteBytes bs) = bs := by
  induction bs with
  | nil => rfl
  | cons b rest ih =>
    have hb : b < 256 := h b (by simp)
    have ih2 := ih fun x hx => h x (by simp [hx])
    rw [quoteBytes]
    cases hsafe : alwaysSafe b with
    | true =>
      have hb37 : b ≠ 37 := by
        intro hcontra
        subst hcontra
        exact absurd hsafe (by decide)
      rw [if_pos rfl, List.singleton_append,
        unquoteBytes_cons_ne b _ hb37, ih2]
    | false =>
      rw [if_neg (by simp [hsafe]), List.cons_append, List.cons_append,
        List.cons_append, List.nil_append,
        unquoteBytes_percent (b / 16) (b % 16) _ (by omega) (by omega),
        ih2, Nat.div_add_mod]

theorem net_download_go_downloads (req : Require)
    (fetch : List Nat → Option Response) (ts : List Target) (c : Nat) :
    (net_download_go req fetch (some c) (ts.map buildTargetUrl)).1 =
      some (c + attemptCount req fetch ts) := by
  induction ts generalizing c with
  | nil => rfl
  | cons t ts ih =>
    rw [List.map_cons, net_download_go, attemptCount]
    cases hf : fetchCheck req (fetch (buildTargetUrl t)) with
    | error e => simp [targetOk, hf, Except.isOk, Except.toBool]
    | ok p =>
      have hrec := ih (c + 1)
      rw [if_pos (by simp [targetOk, hf, Except.isOk, Except.toBool])]
      cases hr : net_download_go req fetch (some (c + 1)) (ts.map buildTargetUrl) with
      | mk d2 r2 =>
        rw [hr] at hrec
        cases r2 with
        | ok rest => simpa [Nat.add_assoc, Nat.add_comm 1] using hrec
        | error e => simpa [Nat.add_assoc, Nat.add_comm 1] using hrec

/-! ### The claims -/

/-- C1 (counterexample): a single-target call whose response has
status 404 fails before completion, yet the download counter moves from
0 to 1 — a failed fetch does not leave the counter unchanged. -/
theorem net_download_failed_fetch_increments_counter :
    (net_download ⟨some 0⟩ (fun _ => some ⟨404, [], []⟩)
        [(([], []) : Target)] ⟨none, none⟩).2 = .error (.badStatus 404) ∧
    (net_download ⟨some 0⟩ (fun _ => some ⟨404, [], []⟩)
        [(([], []) : Target)] ⟨none, none⟩).1.downloads = some 1 :=
  ⟨rfl, rfl⟩

/-- C1 (amended): `self._downloads += 1` runs before the request is
issued and validated, so the counter counts *attempted* target
fetches: one per target up to and including the first failing one;
in particular every successful fetch adds exactly 1, and a failed
fetch also adds 1 before the operation aborts. -/
theorem net_download_counter_counts_attempts (c : Nat)
    (fetch : List Nat → Option Response) (targets : List Target)
    (req : Require) :
    (net_download ⟨some c⟩ fetch targets req).1.downloads =
      some (c + attemptCount req fetch targets) :=
  net_download_go_downloads req fetch targets c

/-- C8: the documented example split, on the embedded `util_split`:
a 15-character limit cuts at the sentence period first, then at the
rightmost qualifying space, leaving the remainder.  Determinism is
immediate because `util_split` is a pure function of its arguments. -/
theorem util_split_hello_example :
    util_split ("Hello world. How are you today?".toList) 15 =
      ["Hello world.".toList, "How are you".toList, "today?".toList] := by
  decide

/-- C3 (counterexample): with seven leading spaces, the tier-3 space at
offset 6 qualifies (6 > SPLIT_MINIMUM), the emitted cut is
right-stripped to nothing, and `util_split` returns an empty chunk —
the claim that no element is the empty string fails. -/
theorem util_split_empty_chunk :
    [] ∈ util_split ("       abcdefgh".toList) 10 := by
  decide

/-- C9: after construction the download counter is `None`:
`net_download_count` returns `None`, any `net_download` call with at
least one target raises (`None += 1` is a `TypeError`) leaving the
counter still `None`, and only `net_download_reset` turns it into the
number 0. -/
theorem downloads_unset_until_reset (fetch : List Nat → Option Response)
    (targets : List Target) (req : Require) (hne : targets ≠ []) :
    net_download_count initService = none ∧
    (net_download initService fetch targets req).2 = .error .counterUnset ∧
    (net_download initService fetch targets req).1.downloads = none ∧
    net_download_count (net_download_reset initService) = some 0 := by
  obtain ⟨t, ts, rfl⟩ := List.exists_cons_of_ne_nil hne
  exact ⟨rfl, rfl, rfl, rfl⟩

/-- Witness for C9 at a concrete single-target call. -/
theorem downloads_unset_until_reset_witness :
    net_download_count initService = none ∧
    (net_download initService (fun _ => none)
      [(([], []) : Target)] ⟨none, none⟩).2 = .error .counterUnset ∧
    (net_download initService (fun _ => none)
      [(([], []) : Target)] ⟨none, none⟩).1.downloads = none ∧
    net_download_count (net_download_reset initService) = some 0 :=
  downloads_unset_until_reset (fun _ => none) [(([], []) : Target)]
    ⟨none, none⟩ (by simp)

/-- C10: for every non-empty byte string, the latin-1 candidate (always
present in `CLI_DECODINGS`) decodes every byte, so the decoding loop
always succeeds and the forced-ASCII fallback branch of `_cli_decode`
is unreachable. -/
theorem cli_decode_fallback_unreachable (bs : List Nat) (_hne : bs ≠ [])
    (hbytes : ∀ b ∈ bs, b < 256) :
    decodeWith .latin1 bs = some bs ∧
    (decodeLoop CLI_DECODINGS bs).isSome = true := by
  have hl : latin1Decode bs = some bs := by
    unfold latin1Decode
    rw [if_pos]
    exact List.all_eq_true.mpr fun b hb => decide_eq_true (hbytes b hb)
  refine ⟨hl, ?_⟩
  rw [CLI_DECODINGS, decodeLoop]
  cases decodeWith .ascii bs with
  | some s => rfl
  | none =>
    rw [decodeLoop]
    cases decodeWith .utf8 bs with
    | some s => rfl
    | none =>
      rw [decodeLoop]
      show (match decodeWith .latin1 bs with
        | some s => some s
        | none => decodeLoop [] bs).isSome = true
      rw [show decodeWith .latin1 bs = some bs from hl]
      rfl

/-- Witness for C10 at the one-byte input `[0]`. -/
theorem cli_decode_fallback_unreachable_witness :
    decodeWith .latin1 [0] = some [0] ∧
    (decodeLoop CLI_DECODINGS [0]).isSome = true :=
  cli_decode_fallback_unreachable [0] (by simp) (by decide)

theorem net_download_go_result (req : Require)
    (fetch : List Nat → Option Response) (ts : List Target) (c : Nat) :
    ((net_download_go req fetch (some c) (ts.map buildTargetUrl)).2.isOk = true ↔
      ts.all (targetOk req fetch) = true) ∧
    (ts.all (targetOk req fetch) = true →
      (net_download_go req fetch (some c) (ts.map buildTargetUrl)).2 =
        .ok (joinSep [] (ts.map (targetPayload req fetch)))) := by
  induction ts generalizing c with
  | nil =>
    exact ⟨by simp [net_download_go, Except.isOk, Except.toBool], fun _ => rfl⟩
  | cons t ts ih =>
    rw [List.map_cons, net_download_go]
    cases hf : fetchCheck req (fetch (buildTargetUrl t)) with
    | error e =>
      constructor
      · simp [List.all_cons, targetOk, hf, Except.isOk, Except.toBool]
      · intro hall
        rw [List.all_cons, targetOk, hf] at hall
        simp [Except.isOk, Except.toBool] at hall
    | ok p =>
      obtain ⟨ih1, ih2⟩ := ih (c + 1)
      cases hr : net_download_go req fetch (some (c + 1)) (ts.map buildTargetUrl) with
      | mk d2 r2 =>
        rw [hr] at ih1 ih2
        cases r2 with
        | ok rest =>
          have hts : ts.all (targetOk req fetch) = true := by
            simpa [Except.isOk, Except.toBool] using ih1
          have hrest : rest = joinSep [] (ts.map (targetPayload req fetch)) := by
            have := ih2 hts
            simpa using this
          constructor
          · simp [List.all_cons, targetOk, hf, hts, Except.isOk, Except.toBool]
          · intro _
            rw [List.map_cons, joinSep_nil_cons, targetPayload, hf, hrest]
        | error e =>
          have hts : ts.all (targetOk req fetch) = false := by
            cases h2 : ts.all (targetOk req fetch) with
            | false => rfl
            | true =>
              rw [h2] at ih1
              simp [Except.isOk, Except.toBool] at ih1
          constructor
          · simp [List.all_cons, hts, Except.isOk, Except.toBool]
          · intro hall
            rw [List.all_cons, hts] at hall
            simp at hall

/-- C4: `net_download` is atomic in the destination file.  The modelled
write is the `.ok` payload: the call succeeds exactly when every target
passes validation (no response, bad status, content-type mismatch and
too-small payload all abort), and on success the bytes written are the
concatenation of the target payloads in target order; on any failure
the operation ends in `.error` before the single `open/write`, so
nothing is written. -/
theorem net_download_atomic (c : Nat) (fetch : List Nat → Option Response)
    (targets : List Target) (req : Require) :
    ((net_download ⟨some c⟩ fetch targets req).2.isOk = true ↔
      targets.all (targetOk req fetch) = true) ∧
    (targets.all (targetOk req fetch) = true →
      (net_download ⟨some c⟩ fetch targets req).2 =
        .ok (joinSep [] (targets.map (targetPayload req fetch)))) :=
  net_download_go_result req fetch targets c

/-- Witness for C4: two successful targets concatenate their payloads;
one 404 target makes the result an error. -/
theorem net_download_atomic_witness :
    (net_download ⟨some 0⟩ (fun _ => some (Response.mk 200 [] [7, 8]))
        [(([], []) : Target), (([], []) : Target)] ⟨none, some 1⟩).2 =
      .ok [7, 8, 7, 8] ∧
    ((net_download ⟨some 0⟩ (fun _ => some (Response.mk 404 [] [7, 8]))
        [(([], []) : Target)] ⟨none, some 1⟩).2.isOk = true ↔
      ([(([], []) : Target)].all
        (targetOk ⟨none, some 1⟩ (fun _ => some (Response.mk 404 [] [7, 8]))) = true)) :=
  ⟨((net_download_atomic 0 (fun _ => some (Response.mk 200 [] [7, 8]))
      [(([], []) : Target), (([], []) : Target)] ⟨none, some 1⟩).2
        (by decide)).trans (by rfl),
   (net_download_atomic 0 (fun _ => some (Response.mk 404 [] [7, 8]))
      [(([], []) : Target)] ⟨none, some 1⟩).1⟩

/-- C5: `cli_transcode` fails with the missing-input error when the
input path does not exist, fails with the insufficient-input error when
the input exists but is smaller than `require['size_in']`, and on
success the returned file system has a file at exactly the output path,
none at the temporary intermediate path (the move), and every other
path untouched. -/
theorem cli_transcode_spec (fs : Nat → Option Nat) (ip op tp : Nat)
    (size_in : Option Nat) (lame : LameOutcome) :
    (fs ip = none → cli_transcode fs ip op tp size_in lame = .error .missingInput) ∧
    (∀ s m, fs ip = some s → size_in = some m → s < m →
      cli_transcode fs ip op tp size_in lame = .error (.insufficientInput s m)) ∧
    (∀ fs2, cli_transcode fs ip op tp size_in lame = .ok fs2 → tp ≠ op →
      (∃ n, fs2 op = some n) ∧ fs2 tp = none ∧
      ∀ q, q ≠ op → q ≠ tp → fs2 q = fs q) := by
  refine ⟨fun h => by simp [cli_transcode, h], fun s m hs hm hlt => by
    simp [cli_transcode, hs, hm, hlt], ?_⟩
  intro fs2 hok htp
  cases hfs : fs ip with
  | none => simp [cli_transcode, hfs] at hok
  | some sz =>
    have hok2 : (match lame with
        | .enoent => (.error .toolNotFound : Except TransErr (Nat → Option Nat))
        | .exitNonzero => .error .processFailed
        | .ran none => .error .transcodeFailed
        | .ran (some n) =>
          .ok fun p =>
            if p = op then some n
            else if p = tp then none
            else fs p) = .ok fs2 := by
      cases size_in with
      | none => simpa [cli_transcode, hfs] using hok
      | some m =>
        by_cases hsz : sz < m
        · simp [cli_transcode, hfs, hsz] at hok
        · simpa [cli_transcode, hfs, hsz] using hok
    cases lame with
    | enoent => cases hok2
    | exitNonzero => cases hok2
    | ran produced =>
      cases produced with
      | none => cases hok2
      | some n =>
        have hfun : (fun p =>
            if p = op then some n
            else if p = tp then none
            else fs p) = fs2 := by
          injection hok2
        refine ⟨⟨n, ?_⟩, ?_, ?_⟩
        · rw [← hfun]; simp
        · rw [← hfun]; simp [htp]
        · intro q hqop hqtp
          rw [← hfun]
          simp [hqop, hqtp]

/-- Witness for C5: the three behaviors at concrete inputs (missing
input; six-byte input against a ten-byte minimum; successful run with
distinct intermediate and output paths). -/
theorem cli_transcode_spec_witness :
    cli_transcode (fun _ => none) 1 2 3 none (.ran (some 20)) =
      .error .missingInput ∧
    cli_transcode (fun _ => some 6) 1 2 3 (some 10) (.ran (some 20)) =
      .error (.insufficientInput 6 10) ∧
    ((∃ n, (fun p : Nat =>
        if p = 2 then some 20
        else if p = 3 then none
        else (fun _ : Nat => (some 6 : Option Nat)) p) 2 = some n) ∧
      (fun p : Nat =>
        if p = 2 then some 20
        else if p = 3 then none
        else (fun _ : Nat => (some 6 : Option Nat)) p) 3 = none ∧
      ∀ q, q ≠ 2 → q ≠ 3 →
        (fun p : Nat =>
          if p = 2 then some 20
          else if p = 3 then none
          else (fun _ : Nat => (some 6 : Option Nat)) p) q =
          (fun _ : Nat => (some 6 : Option Nat)) q) :=
  ⟨(cli_transcode_spec (fun _ => none) 1 2 3 none (.ran (some 20))).1 rfl,
   (cli_transcode_spec (fun _ => some 6) 1 2 3 (some 10)
      (.ran (some 20))).2.1 6 10 rfl rfl (by omega),
   (cli_transcode_spec (fun _ => some 6) 1 2 3 none
      (.ran (some 20))).2.2 _ rfl (by omega)⟩

/-- C2 (counterexample): with key `"a b"` and value `"c d"`, the built
URL keeps the space of the key verbatim while the value is
percent-encoded, so it differs from the URL the claim describes (both
key and value encoded). -/
theorem net_download_url_keys_not_encoded :
    buildTargetUrl (strBytes "http://x",
        [(strBytes "a b", QVal.qbytes (strBytes "c d"))]) =
      strBytes "http://x?a b=c%20d" ∧
    buildTargetUrlSpec (strBytes "http://x",
        [(strBytes "a b", QVal.qbytes (strBytes "c d"))]) =
      strBytes "http://x?a%20b=c%20d" ∧
    buildTargetUrl (strBytes "http://x",
        [(strBytes "a b", QVal.qbytes (strBytes "c d"))]) ≠
      buildTargetUrlSpec (strBytes "http://x",
        [(strBytes "a b", QVal.qbytes (strBytes "c d"))]) :=
  ⟨by decide, by decide, by decide⟩

/-- C2 (amended): the request URL appends a query string in which each
parameter is the key joined verbatim (not encoded) to the
percent-encoded value, non-string values being stringified first;
percent-encoding of values is lossless (for genuine bytes it can be
decoded back exactly). -/
theorem net_download_url_encodes_values_only (url : List Nat)
    (query : List (List Nat × QVal)) :
    buildTargetUrl (url, query) =
      url ++ 63 :: joinSep [38]
        (query.map fun kv => kv.1 ++ 61 :: quoteBytes (stringifyVal kv.2)) ∧
    ∀ bs : List Nat, (∀ b ∈ bs, b < 256) →
      unquoteBytes (quoteBytes bs) = bs :=
  ⟨by simp [buildTargetUrl, joinSep_pair], fun bs h => unquote_quote bs h⟩

/-- Witness for C2 at the concrete target of the counterexample. -/
theorem net_download_url_encodes_values_only_witness :
    buildTargetUrl (strBytes "http://x",
        [(strBytes "a b", QVal.qbytes (strBytes "c d"))]) =
      strBytes "http://x" ++ 63 :: joinSep [38]
        ([(strBytes "a b", QVal.qbytes (strBytes "c d"))].map
          fun kv => kv.1 ++ 61 :: quoteBytes (stringifyVal kv.2)) ∧
    unquoteBytes (quoteBytes (strBytes "c d")) = strBytes "c d" :=
  ⟨(net_download_url_encodes_values_only (strBytes "http://x")
      [(strBytes "a b", QVal.qbytes (strBytes "c d"))]).1,
   (net_download_url_encodes_values_only (strBytes "http://x")
      [(strBytes "a b", QVal.qbytes (strBytes "c d"))]).2
      (strBytes "c d") (by decide)⟩

theorem decodeLoop_cons_some (e : Encoding) (es : List Encoding)
    (bs s : List Nat) (h : decodeWith e bs = some s) :
    decodeLoop (e :: es) bs = some s := by
  rw [decodeLoop, h]

theorem decodeLoop_cons_none (e : Encoding) (es : List Encoding)
    (bs : List Nat) (h : decodeWith e bs = none) :
    decodeLoop (e :: es) bs = decodeLoop es bs := by
  rw [decodeLoop, h]

theorem cli_decode_of_loop (bs s : List Nat) (hne : bs ≠ [])
    (hloop : decodeLoop CLI_DECODINGS bs = some s) (hstrip : stripWs s ≠ []) :
    cli_decode bs = .ok (splitNL (stripWs s)) := by
  unfold cli_decode
  rw [if_neg hne, hloop]
  show (if stripWs s = [] then Except.error CliErr.whitespaceOnly
    else Except.ok (splitNL (stripWs s))) = Except.ok (splitNL (stripWs s))
  rw [if_neg hstrip]

/-- C6: when the raw bytes decode without error under exactly one of
the candidate encodings, `_cli_decode` returns exactly that decoding,
trimmed and split into lines (or the whitespace error when the trim is
empty); when every candidate fails, it returns the forced strict-ASCII
decode with undecodable bytes dropped, again trimmed and split, without
raising (except for a blank trim). -/
theorem cli_decode_unique_encoding (bs : List Nat) (hne : bs ≠ []) :
    (∀ (enc : Encoding) (s : List Nat), decodeWith enc bs = some s →
      (∀ e ∈ CLI_DECODINGS, (decodeWith e bs).isSome = true → e = enc) →
      cli_decode bs =
        if stripWs s = [] then .error .whitespaceOnly
        else .ok (splitNL (stripWs s))) ∧
    ((∀ e ∈ CLI_DECODINGS, decodeWith e bs = none) →
      cli_decode bs =
        if stripWs (forcedAscii bs) = [] then .error .whitespaceOnly
        else .ok (splitNL (stripWs (forcedAscii bs)))) := by
  constructor
  · intro enc s hs huniq
    have hloop : decodeLoop CLI_DECODINGS bs = some s := by
      cases enc with
      | ascii =>
        rw [CLI_DECODINGS]
        exact decodeLoop_cons_some _ _ _ _ hs
      | utf8 =>
        have hA : decodeWith .ascii bs = none := by
          cases hA2 : decodeWith .ascii bs with
          | none => rfl
          | some x =>
            exact absurd (huniq .ascii (by simp [CLI_DECODINGS]) (by simp [hA2]))
              (by decide)
        rw [CLI_DECODINGS, decodeLoop_cons_none _ _ _ hA]
        exact decodeLoop_cons_some _ _ _ _ hs
      | latin1 =>
        have hA : decodeWith .ascii bs = none := by
          cases hA2 : decodeWith .ascii bs with
          | none => rfl
          | some x =>
            exact absurd (huniq .ascii (by simp [CLI_DECODINGS]) (by simp [hA2]))
              (by decide)
        have hU : decodeWith .utf8 bs = none := by
          cases hU2 : decodeWith .utf8 bs with
          | none => rfl
          | some x =>
            exact absurd (huniq .utf8 (by simp [CLI_DECODINGS]) (by simp [hU2]))
              (by decide)
        rw [CLI_DECODINGS, decodeLoop_cons_none _ _ _ hA,
          decodeLoop_cons_none _ _ _ hU]
        exact decodeLoop_cons_some _ _ _ _ hs
    unfold cli_decode
    rw [if_neg hne, hloop]
  · intro hall
    have hloop : decodeLoop CLI_DECODINGS bs = none := by
      rw [CLI_DECODINGS,
        decodeLoop_cons_none _ _ _ (hall .ascii (by simp [CLI_DECODINGS])),
        decodeLoop_cons_none _ _ _ (hall .utf8 (by simp [CLI_DECODINGS])),
        decodeLoop_cons_none _ _ _ (hall .latin1 (by simp [CLI_DECODINGS]))]
      rfl
    unfold cli_decode
    rw [if_neg hne, hloop]

/-- Witness for C6: `[200]` is invalid ASCII and invalid UTF-8 but
valid latin-1, so the result is that decoding split into one line. -/
theorem cli_decode_unique_encoding_witness :
    cli_decode [200] = .ok [[200]] := by
  have h := (cli_decode_unique_encoding [200] (by simp)).1 .latin1 [200]
    (by decide) (by decide)
  rw [h]
  rfl

/-- C7: a command exiting non-zero while writing non-whitespace content
to standard error (ASCII output streams) makes the strict `cli_output`
fail with the process error, while the lenient `cli_output_error`
succeeds and its line list contains the stripped standard-error content
(as a suffix of the joined lines, given the merged capture). -/
theorem cli_output_strict_vs_lenient (p : ProcResult)
    (hexit : p.exitCode ≠ 0)
    (hascii : ∀ b ∈ p.stdout ++ p.stderr, b < 128)
    (hnws : ∃ b ∈ p.stderr, isPySpace b = false) :
    cli_output p = .error (.processError p.exitCode) ∧
    ∃ lines, cli_output_error p = .ok lines ∧
      stripWs p.stderr <:+ joinNL lines := by
  obtain ⟨b, hb, hpb⟩ := hnws
  have hbm : b ∈ p.stdout ++ p.stderr := List.mem_append_right _ hb
  constructor
  · rw [cli_output, check_output]
    simp [hexit]
  · have hmer_ne : p.stdout ++ p.stderr ≠ [] := by
      intro h0
      rw [h0] at hbm
      cases hbm
    have hA : decodeWith .ascii (p.stdout ++ p.stderr) =
        some (p.stdout ++ p.stderr) := by
      show asciiDecode (p.stdout ++ p.stderr) = some (p.stdout ++ p.stderr)
      unfold asciiDecode
      rw [if_pos (List.all_eq_true.mpr fun x hx => decide_eq_true (hascii x hx))]
    have hstrip_ne : stripWs (p.stdout ++ p.stderr) ≠ [] :=
      stripWs_ne_nil_of_mem _ b hbm hpb
    have hcd : cli_decode (p.stdout ++ p.stderr) =
        .ok (splitNL (stripWs (p.stdout ++ p.stderr))) :=
      cli_decode_of_loop _ _ hmer_ne
        (by rw [CLI_DECODINGS]; exact decodeLoop_cons_some _ _ _ _ hA)
        hstrip_ne
    refine ⟨splitNL (stripWs (p.stdout ++ p.stderr)), ?_, ?_⟩
    · rw [cli_output_error, check_output]
      simp only [hexit, if_false, if_neg hexit]
      exact hcd
    · rw [joinNL_splitNL]
      exact stripWs_suffix_append p.stdout p.stderr ⟨b, hb, hpb⟩

/-- Witness for C7: exit status 1 with stderr bytes `err` and empty
stdout. -/
theorem cli_output_strict_vs_lenient_witness :
    cli_output ⟨1, [], [101, 114, 114]⟩ = .error (.processError 1) ∧
    ∃ lines, cli_output_error ⟨1, [], [101, 114, 114]⟩ = .ok lines ∧
      stripWs [101, 114, 114] <:+ joinNL lines :=
  cli_output_strict_vs_lenient ⟨1, [], [101, 114, 114]⟩ (by decide)
    (by decide) (by decide)

theorem util_split_go_recon (limit : Nat) (fuel : Nat) :
    ∀ text : List Char, Recon (util_split_go limit fuel text) text := by
  induction fuel with
  | zero => intro text; exact Recon.single text
  | succ f ih =>
    intro text
    simp only [util_split_go]
    by_cases hlen : text.length ≤ limit
    · rw [if_pos hlen]
      exact Recon.single text
    · rw [if_neg hlen]
      cases htc : tierCut SPLIT_PRIORITY text limit with
      | some offset =>
        obtain ⟨tail, htake, htail⟩ :=
          rstripBy_decomp isPySpaceChar (text.take (offset + 1))
        have hdrop := List.takeWhile_append_dropWhile splitChar
          (text.drop (offset + 1))
        have hspacer : ∀ c ∈ tail ++ (text.drop (offset + 1)).takeWhile splitChar,
            strippedChar c = true := by
          intro c hc
          rcases List.mem_append.mp hc with h1 | h1
          · simp [strippedChar, htail c h1]
          · simp [strippedChar, List.mem_takeWhile_imp h1]
        have heq : rstripBy isPySpaceChar (text.take (offset + 1)) ++
            ((tail ++ (text.drop (offset + 1)).takeWhile splitChar) ++
              (text.drop (offset + 1)).dropWhile splitChar) = text := by
          rw [List.append_assoc tail, ← List.append_assoc
            (rstripBy isPySpaceChar (text.take (offset + 1))),
            ← htake, hdrop, List.take_append_drop]
        have hrec := Recon.cons
          (rstripBy isPySpaceChar (text.take (offset + 1)))
          (tail ++ (text.drop (offset + 1)).takeWhile splitChar)
          (util_split_go limit f ((text.drop (offset + 1)).dropWhile splitChar))
          ((text.drop (offset + 1)).dropWhile splitChar) hspacer
          (ih ((text.drop (offset + 1)).dropWhile splitChar))
        rw [heq] at hrec
        exact hrec
      | none =>
        have hdrop := List.takeWhile_append_dropWhile splitChar (text.drop limit)
        have hspacer : ∀ c ∈ (text.drop limit).takeWhile splitChar,
            strippedChar c = true := by
          intro c hc
          simp [strippedChar, List.mem_takeWhile_imp hc]
        have heq : text.take limit ++
            ((text.drop limit).takeWhile splitChar ++
              (text.drop limit).dropWhile splitChar) = text := by
          rw [hdrop, List.take_append_drop]
        have hrec := Recon.cons
          (text.take limit)
          ((text.drop limit).takeWhile splitChar)
          (util_split_go limit f ((text.drop limit).dropWhile splitChar))
          ((text.drop limit).dropWhile splitChar) hspacer
          (ih ((text.drop limit).dropWhile splitChar))
        rw [heq] at hrec
        exact hrec

/-- C3 (amended): for every input string and limit at least 1, the
chunks `util_split` returns reconstruct the original text when the
stripped characters (whitespace removed by `rstrip`, break characters
removed by `lstrip`) are re-inserted between them; chunks may however
be empty (see the counterexample), so the non-emptiness part of the
claim is dropped. -/
theorem util_split_reconstructs (text : List Char) (limit : Nat)
    (_hlim : 1 ≤ limit) : Recon (util_split text limit) text :=
  util_split_go_recon limit text.length text

/-- Witness for C3 at a concrete phrase and limit 15. -/
theorem util_split_reconstructs_witness :
    1 ≤ 15 ∧
    Recon (util_split ("Hello there.".toList) 15) ("Hello there.".toList) :=
  ⟨by decide, util_split_reconstructs ("Hello there.".toList) 15 (by decide)⟩

end AwesomeTTS
